import Mathlib

/-!
Shallow embedding of the fuzzy string-matching core of this repository:
the dynamic-programming edit-distance function `levenshteinDistance`, the
normalization `similarity`, and the selector `findBestMatch`.

Strings are modelled as `List Char`; the floating-point score is modelled
as `ℚ`.  Case folding (`toLowerCase`) is modelled by mapping `Char.toLower`.
An edit-script semantics (`EditStep`, `Reaches`) is used to state that the
computed distance is the minimum number of single-character insertions,
deletions and substitutions.
-/

namespace FuzzyCore

/-- Cell `(i, j)` of the dynamic-programming `matrix` built by the source's
`levenshteinDistance`: row `0` holds the column index `j`, column `0` of every
row holds the row index `i`, and an interior cell compares `b[i-1]` with
`a[j-1]` (here written with `0`-based list lookups): on a match it copies the
diagonal, otherwise it is
`min (matrix[i-1][j-1] + 1) (min (matrix[i][j-1] + 1) (matrix[i-1][j] + 1))`
(substitution, insertion, deletion). -/
def cell (a b : List Char) : Nat → Nat → Nat
  | 0, j => j
  | i + 1, 0 => i + 1
  | i + 1, j + 1 =>
    if b[i]? = a[j]? then cell a b i j
    else min (cell a b i j + 1) (min (cell a b (i + 1) j + 1) (cell a b i (j + 1) + 1))
termination_by i j => (i, j)

/-- Shallow embedding of the source's `levenshteinDistance(a = '', b = '')`:
if `a` is empty the answer is `b.length`, if `b` is empty it is `a.length`,
and otherwise it is the bottom-right cell `matrix[bn][an]` of the
dynamic-programming table. -/
def levenshteinDistance (a b : List Char) : Nat :=
  let an := a.length
  let bn := b.length
  if an = 0 then bn
  else if bn = 0 then an
  else cell a b bn an

/-- Reference recursion for the Levenshtein distance, peeling characters from
the front of both lists.  `cell` is related to `lev` on reversed prefixes. -/
def lev : List Char → List Char → Nat
  | [], ys => ys.length
  | _ :: xs, [] => xs.length + 1
  | x :: xs, y :: ys =>
    if x = y then lev xs ys
    else 1 + min (lev xs ys) (min (lev (x :: xs) ys) (lev xs (y :: ys)))
termination_by xs ys => (xs.length, ys.length)

/-- Shallow embedding of the source's `similarity(distance, len1, len2)`:
normalize a distance to a score, `1` when both lengths are `0` (avoiding a
division by zero), otherwise `1 - distance / max(len1, len2)`. -/
def similarity (distance len1 len2 : Nat) : ℚ :=
  let maxLen := max len1 len2
  if maxLen = 0 then 1 else 1 - (distance : ℚ) / (maxLen : ℚ)

/-- JavaScript's `String.prototype.toLowerCase`, modelled as case-folding each
character. -/
def toLowerCase (s : List Char) : List Char :=
  s.map Char.toLower

/-- The score the selector's loop computes for one candidate: the similarity
between the case-folded target and the candidate's case-folded label. -/
def scoreOf {T : Type} (targetLower : List Char) (keyExtractor : T → List Char)
    (candidate : T) : ℚ :=
  similarity (levenshteinDistance targetLower (toLowerCase (keyExtractor candidate)))
    targetLower.length (toLowerCase (keyExtractor candidate)).length

/-- Body of the source's `for (const candidate of candidates)` loop, acting on
the accumulator `(bestMatch, highScore)`: compute the candidate's score and
replace the accumulator exactly when `score > highScore`. -/
def fbmStep {T : Type} (targetLower : List Char) (keyExtractor : T → List Char)
    (acc : Option T × ℚ) (candidate : T) : Option T × ℚ :=
  let candidateLower := toLowerCase (keyExtractor candidate)
  let distance := levenshteinDistance targetLower candidateLower
  let score := similarity distance targetLower.length candidateLower.length
  if acc.2 < score then (some candidate, score) else acc

/-- Shallow embedding of the source's `findBestMatch(target, candidates,
keyExtractor)`: return `none` when the target is empty (falsy) or the
candidate list has length `0`; otherwise fold the loop body over the
candidates starting from `bestMatch = null`, `highScore = -1`, and finally
return the best record with its score when `bestMatch` is non-null and
`highScore > 0.5`, else `none`. -/
def findBestMatch {T : Type} (target : List Char) (candidates : List T)
    (keyExtractor : T → List Char) : Option (T × ℚ) :=
  if target = [] ∨ candidates.length = 0 then none
  else
    let targetLower := toLowerCase target
    match candidates.foldl (fbmStep targetLower keyExtractor) (none, -1) with
    | (some bestMatch, highScore) =>
        if 1 / 2 < highScore then some (bestMatch, highScore) else none
    | (none, _) => none

/-- A single-character edit: insert a character at any position, delete the
character at any position, or substitute the character at any position by a
different one. -/
inductive EditStep : List Char → List Char → Prop
  | insert (pre suf : List Char) (c : Char) : EditStep (pre ++ suf) (pre ++ c :: suf)
  | delete (pre suf : List Char) (c : Char) : EditStep (pre ++ c :: suf) (pre ++ suf)
  | subst (pre suf : List Char) (c d : Char) (h : c ≠ d) :
      EditStep (pre ++ c :: suf) (pre ++ d :: suf)

/-- `Reaches n a b` : `b` is obtained from `a` by exactly `n` single-character
edit operations. -/
inductive Reaches : Nat → List Char → List Char → Prop
  | refl (a : List Char) : Reaches 0 a a
  | step {n : Nat} {a b c : List Char} :
      EditStep a b → Reaches n b c → Reaches (n + 1) a c

/-! ### Basic properties of the reference recursion `lev` -/

theorem lev_nil_right (xs : List Char) : lev xs [] = xs.length := by
  cases xs <;> simp [lev]

theorem lev_self (xs : List Char) : lev xs xs = 0 := by
  induction xs with
  | nil => simp [lev]
  | cons x xs ih => simp [lev, ih]

theorem lev_symm (xs ys : List Char) : lev xs ys = lev ys xs := by
  induction xs, ys using lev.induct with
  | case1 ys => simp [lev, lev_nil_right]
  | case2 x xs => simp [lev, lev_nil_right]
  | case3 xs y ys ih => simp [lev, ih]
  | case4 x xs y ys h ih1 ih2 ih3 =>
    have h' : ¬(y = x) := fun e => h e.symm
    simp only [lev, if_neg h, if_neg h', ih1, ih2, ih3]
    omega

theorem lev_le_max (xs ys : List Char) : lev xs ys ≤ max xs.length ys.length := by
  induction xs, ys using lev.induct with
  | case1 ys => simp [lev]
  | case2 x xs => simp [lev]
  | case3 xs y ys ih => simp only [lev, List.length_cons]; simp only [if_true]; omega
  | case4 x xs y ys h ih1 ih2 ih3 =>
    simp only [lev, if_neg h, List.length_cons] at *
    omega

theorem length_le_lev_add (xs ys : List Char) : xs.length ≤ lev xs ys + ys.length := by
  induction xs, ys using lev.induct with
  | case1 ys => simp [lev]
  | case2 x xs => simp [lev]
  | case3 xs y ys ih => simp only [lev, List.length_cons]; simp only [if_true]; omega
  | case4 x xs y ys h ih1 ih2 ih3 =>
    simp only [lev, if_neg h, List.length_cons] at *
    omega

theorem lev_eq_zero_iff (xs ys : List Char) : lev xs ys = 0 ↔ xs = ys := by
  constructor
  · intro h
    induction xs, ys using lev.induct with
    | case1 ys => simp only [lev] at h; exact (List.length_eq_zero.mp h).symm
    | case2 x xs => simp [lev] at h
    | case3 xs y ys ih => simp only [lev, if_pos rfl] at h; rw [ih h]
    | case4 x xs y ys hne ih1 ih2 ih3 => simp only [lev, if_neg hne] at h; omega
  · rintro rfl; exact lev_self xs

/-! ### One edit changes `lev` by at most one -/

theorem lev_step_aux :
    ∀ (N : Nat) (xs ys : List Char), xs.length + ys.length ≤ N →
      (∀ c, lev (c :: xs) ys ≤ lev xs ys + 1) ∧
      (∀ y, lev xs ys ≤ lev xs (y :: ys) + 1) := by
  intro N
  induction N with
  | zero =>
    intro xs ys h
    have hx : xs = [] := List.length_eq_zero.mp (by omega)
    have hy : ys = [] := List.length_eq_zero.mp (by omega)
    subst hx; subst hy
    exact ⟨fun c => by simp [lev], fun y => by simp [lev]⟩
  | succ N ih =>
    intro xs ys h
    constructor
    · intro c
      match ys with
      | [] => simp [lev, lev_nil_right]
      | y :: t =>
        by_cases hc : c = y
        · subst hc
          have h2 := (ih xs t (by simp at h; omega)).2 c
          simp only [lev, if_true]
          omega
        · simp only [lev, if_neg hc]
          omega
    · intro y
      match xs with
      | [] => simp only [lev, List.length_cons]; omega
      | x :: t =>
        by_cases hx : x = y
        · subst hx
          have h1 := (ih t ys (by simp at h; omega)).1 x
          simp only [lev, if_true]
          omega
        · simp only [lev, if_neg hx]
          have h1 := (ih t ys (by simp at h; omega)).1 x
          have h2 := (ih t ys (by simp at h; omega)).2 y
          omega

theorem lev_cons_left_le (c : Char) (xs ys : List Char) :
    lev (c :: xs) ys ≤ lev xs ys + 1 :=
  (lev_step_aux (xs.length + ys.length) xs ys le_rfl).1 c

theorem lev_le_cons_right (xs ys : List Char) (y : Char) :
    lev xs ys ≤ lev xs (y :: ys) + 1 :=
  (lev_step_aux (xs.length + ys.length) xs ys le_rfl).2 y

theorem lev_le_cons_left (c : Char) (xs ys : List Char) :
    lev xs ys ≤ lev (c :: xs) ys + 1 := by
  rw [lev_symm xs ys, lev_symm (c :: xs) ys]
  exact lev_le_cons_right ys xs c

theorem lev_cons_right_le (xs ys : List Char) (y : Char) :
    lev xs (y :: ys) ≤ lev xs ys + 1 := by
  rw [lev_symm xs (y :: ys), lev_symm xs ys]
  exact lev_cons_left_le y ys xs

theorem lev_subst_head (c d : Char) (suf : List Char) :
    ∀ b, lev (d :: suf) b ≤ lev (c :: suf) b + 1 := by
  intro b
  match b with
  | [] => simp [lev_nil_right]
  | y :: t =>
    by_cases hd : d = y
    · subst hd
      by_cases hc : c = d
      · subst hc; omega
      · simp only [lev, if_true, if_neg hc]
        have h1 := lev_le_cons_left c suf t
        have h2 := lev_le_cons_right suf t d
        omega
    · by_cases hc : c = y
      · subst hc
        simp only [lev, if_true, if_neg hd]
        omega
      · simp only [lev, if_neg hd, if_neg hc]
        have h1 := lev_le_cons_left c suf t
        omega

theorem lev_append_left_mono :
    ∀ (N : Nat) (pre b t s : List Char),
      pre.length + b.length ≤ N →
      (∀ b', lev t b' ≤ lev s b' + 1) →
      lev (pre ++ t) b ≤ lev (pre ++ s) b + 1 := by
  intro N
  induction N with
  | zero =>
    intro pre b t s hlen h
    have hp : pre = [] := List.length_eq_zero.mp (by omega)
    have hb : b = [] := List.length_eq_zero.mp (by omega)
    subst hp; subst hb
    simpa using h []
  | succ N ih =>
    intro pre b t s hlen h
    match pre with
    | [] => simpa using h b
    | p :: pre' =>
      match b with
      | [] =>
        have h0 := h []
        simp only [lev_nil_right] at h0 ⊢
        simp only [List.length_cons, List.length_append]
        omega
      | y :: ys =>
        simp only [List.length_cons] at hlen
        by_cases hp : p = y
        · subst hp
          simp only [List.cons_append, lev, if_pos rfl]
          exact ih pre' ys t s (by omega) h
        · simp only [List.cons_append, lev, if_neg hp]
          have h1 := ih pre' ys t s (by omega) h
          have h2 := ih (p :: pre') ys t s (by simp; omega) h
          have h3 := ih pre' (y :: ys) t s (by simp; omega) h
          simp only [List.cons_append] at h2
          omega

theorem editStep_lev_le {a a' : List Char} (h : EditStep a a') (b : List Char) :
    lev a b ≤ lev a' b + 1 := by
  cases h with
  | insert pre suf c =>
    exact lev_append_left_mono (pre.length + b.length) pre b suf (c :: suf) le_rfl
      (fun b' => lev_le_cons_left c suf b')
  | delete pre suf c =>
    exact lev_append_left_mono (pre.length + b.length) pre b (c :: suf) suf le_rfl
      (fun b' => lev_cons_left_le c suf b')
  | subst pre suf c d hne =>
    exact lev_append_left_mono (pre.length + b.length) pre b (c :: suf) (d :: suf) le_rfl
      (fun b' => lev_subst_head d c suf b')

/-! ### Edit scripts attain `lev`, and `lev` is a lower bound -/

theorem reaches_trans {m n : Nat} {a b c : List Char}
    (h1 : Reaches m a b) (h2 : Reaches n b c) : Reaches (m + n) a c := by
  induction h1 with
  | refl a => simpa using h2
  | step e r ih =>
    have h := Reaches.step e (ih h2)
    rwa [Nat.add_right_comm] at h

theorem reaches_snoc {n : Nat} {a b c : List Char}
    (h : Reaches n a b) (e : EditStep b c) : Reaches (n + 1) a c :=
  reaches_trans h (Reaches.step e (Reaches.refl c))

theorem editStep_cons (x : Char) {xs ys : List Char} (h : EditStep xs ys) :
    EditStep (x :: xs) (x :: ys) := by
  cases h with
  | insert pre suf c => exact EditStep.insert (x :: pre) suf c
  | delete pre suf c => exact EditStep.delete (x :: pre) suf c
  | subst pre suf c d hne => exact EditStep.subst (x :: pre) suf c d hne

theorem reaches_cons (x : Char) {n : Nat} {xs ys : List Char}
    (h : Reaches n xs ys) : Reaches n (x :: xs) (x :: ys) := by
  induction h with
  | refl a => exact Reaches.refl (x :: a)
  | step e r ih => exact Reaches.step (editStep_cons x e) ih

theorem reaches_nil_left (ys : List Char) : Reaches ys.length [] ys := by
  induction ys with
  | nil => exact Reaches.refl []
  | cons y t ih =>
    have e : EditStep [] [y] := EditStep.insert [] [] y
    simpa using Reaches.step e (reaches_cons y ih)

theorem reaches_nil_right (xs : List Char) : Reaches xs.length xs [] := by
  induction xs with
  | nil => exact Reaches.refl []
  | cons x t ih =>
    have e : EditStep (x :: t) t := EditStep.delete [] t x
    simpa using Reaches.step e ih

theorem lev_reaches (xs ys : List Char) : Reaches (lev xs ys) xs ys := by
  induction xs, ys using lev.induct with
  | case1 ys => simpa [lev] using reaches_nil_left ys
  | case2 x xs =>
    have h := reaches_nil_right (x :: xs)
    simpa [lev] using h
  | case3 xs y ys ih =>
    have e : lev (y :: xs) (y :: ys) = lev xs ys := by simp [lev]
    rw [e]
    exact reaches_cons y ih
  | case4 x xs y ys h ih1 ih2 ih3 =>
    have e : lev (x :: xs) (y :: ys) =
        1 + min (lev xs ys) (min (lev (x :: xs) ys) (lev xs (y :: ys))) := by
      simp [lev, h]
    rw [e]
    rcases Nat.le_total (lev xs ys) (min (lev (x :: xs) ys) (lev xs (y :: ys))) with h0 | h0
    · rw [min_eq_left h0, Nat.add_comm]
      exact Reaches.step (EditStep.subst [] xs x y h) (reaches_cons y ih1)
    · rw [min_eq_right h0]
      rcases Nat.le_total (lev (x :: xs) ys) (lev xs (y :: ys)) with h1 | h1
      · rw [min_eq_left h1, Nat.add_comm]
        exact reaches_snoc ih2 (EditStep.insert [] ys y)
      · rw [min_eq_right h1, Nat.add_comm]
        exact Reaches.step (EditStep.delete [] xs x) ih3

theorem reaches_lev_le {n : Nat} {a b : List Char} (h : Reaches n a b) :
    lev a b ≤ n := by
  induction h with
  | refl a => simp [lev_self]
  | step e r ih =>
    exact le_trans (editStep_lev_le e _) (Nat.add_le_add_right ih 1)

theorem editStep_reverse {a b : List Char} (h : EditStep a b) :
    EditStep a.reverse b.reverse := by
  cases h with
  | insert pre suf c =>
    have e := EditStep.insert suf.reverse pre.reverse c
    have h1 : (pre ++ suf).reverse = suf.reverse ++ pre.reverse := by simp
    have h2 : (pre ++ c :: suf).reverse = suf.reverse ++ c :: pre.reverse := by simp
    rw [h1, h2]; exact e
  | delete pre suf c =>
    have e := EditStep.delete suf.reverse pre.reverse c
    have h1 : (pre ++ suf).reverse = suf.reverse ++ pre.reverse := by simp
    have h2 : (pre ++ c :: suf).reverse = suf.reverse ++ c :: pre.reverse := by simp
    rw [h1, h2]; exact e
  | subst pre suf c d hne =>
    have e := EditStep.subst suf.reverse pre.reverse c d hne
    have h1 : (pre ++ c :: suf).reverse = suf.reverse ++ c :: pre.reverse := by simp
    have h2 : (pre ++ d :: suf).reverse = suf.reverse ++ d :: pre.reverse := by simp
    rw [h1, h2]; exact e

theorem reaches_reverse {n : Nat} {a b : List Char} (h : Reaches n a b) :
    Reaches n a.reverse b.reverse := by
  induction h with
  | refl a => exact Reaches.refl a.reverse
  | step e r ih => exact Reaches.step (editStep_reverse e) ih

/-! ### The dynamic-programming table computes `lev` of reversed prefixes -/

theorem lev_cons_cons_eq {x y : Char} (xs ys : List Char) (h : x = y) :
    lev (x :: xs) (y :: ys) = lev xs ys := by
  subst h; simp [lev]

theorem lev_cons_cons_ne {x y : Char} (xs ys : List Char) (h : ¬x = y) :
    lev (x :: xs) (y :: ys) =
      1 + min (lev xs ys) (min (lev (x :: xs) ys) (lev xs (y :: ys))) := by
  simp [lev, h]

theorem cell_eq (a b : List Char) :
    ∀ i, i ≤ b.length → ∀ j, j ≤ a.length →
      cell a b i j = lev ((a.take j).reverse) ((b.take i).reverse) := by
  intro i
  induction i with
  | zero =>
    intro _ j hj
    have hlen : ((a.take j).reverse).length = j := by
      simp [List.length_take, Nat.min_eq_left hj]
    simp [cell, lev_nil_right, hlen]
  | succ i ihi =>
    intro hi j hj
    induction j with
    | zero =>
      have hlen : ((b.take (i + 1)).reverse).length = i + 1 := by
        simp [List.length_take, Nat.min_eq_left hi]
      simp [cell, lev, hlen]
    | succ j ihj =>
      have hi' : i < b.length := by omega
      have hj' : j < a.length := by omega
      have ha : (a.take (j + 1)).reverse = a.get ⟨j, hj'⟩ :: (a.take j).reverse := by
        rw [List.take_succ]
        simp [List.getElem?_eq_getElem hj']
      have hb : (b.take (i + 1)).reverse = b.get ⟨i, hi'⟩ :: (b.take i).reverse := by
        rw [List.take_succ]
        simp [List.getElem?_eq_getElem hi']
      have hcell : cell a b (i + 1) (j + 1) =
          if b[i]? = a[j]? then cell a b i j
          else min (cell a b i j + 1)
            (min (cell a b (i + 1) j + 1) (cell a b i (j + 1) + 1)) := by
        simp [cell]
      have hcond : (b[i]? = a[j]?) ↔ (b.get ⟨i, hi'⟩ = a.get ⟨j, hj'⟩) := by
        rw [List.getElem?_eq_getElem hi', List.getElem?_eq_getElem hj']
        exact Option.some_inj
      rw [hcell, ha, hb]
      by_cases hxy : b.get ⟨i, hi'⟩ = a.get ⟨j, hj'⟩
      · rw [if_pos (hcond.mpr hxy)]
        rw [lev_cons_cons_eq _ _ hxy.symm]
        exact ihi (by omega) j (by omega)
      · rw [if_neg (fun e => hxy (hcond.mp e))]
        have hne : ¬(a.get ⟨j, hj'⟩ = b.get ⟨i, hi'⟩) := fun e => hxy e.symm
        rw [lev_cons_cons_ne _ _ hne]
        have e1 := ihi (by omega) j (by omega)
        have e2 : cell a b (i + 1) j = lev ((a.take j).reverse) ((b.take (i + 1)).reverse) :=
          ihj (by omega)
        have e3 := ihi (by omega) (j + 1) (by omega)
        rw [e1, e2, e3, ha, hb]
        omega

theorem levenshteinDistance_eq_lev (a b : List Char) :
    levenshteinDistance a b = lev a.reverse b.reverse := by
  unfold levenshteinDistance
  by_cases ha : a.length = 0
  · have : a = [] := List.length_eq_zero.mp ha
    subst this
    simp [lev]
  · by_cases hb : b.length = 0
    · have : b = [] := List.length_eq_zero.mp hb
      subst this
      simp [ha, lev_nil_right]
    · simp only [ha, hb, if_false]
      rw [cell_eq a b b.length le_rfl a.length le_rfl]
      simp

/-! ### Properties of `levenshteinDistance` derived through `lev` -/

theorem levenshteinDistance_le_max (a b : List Char) :
    levenshteinDistance a b ≤ max a.length b.length := by
  rw [levenshteinDistance_eq_lev]
  simpa using lev_le_max a.reverse b.reverse

theorem levenshteinDistance_eq_zero_iff (a b : List Char) :
    levenshteinDistance a b = 0 ↔ a = b := by
  rw [levenshteinDistance_eq_lev, lev_eq_zero_iff]
  exact List.reverse_inj

theorem levenshteinDistance_self (a : List Char) : levenshteinDistance a a = 0 :=
  (levenshteinDistance_eq_zero_iff a a).mpr rfl

/-! ### Properties of `similarity` and of the per-candidate score -/

theorem similarity_le_one (d l1 l2 : Nat) : similarity d l1 l2 ≤ 1 := by
  unfold similarity
  by_cases h : max l1 l2 = 0
  · simp [h]
  · simp only [h, if_false]
    have h0 : (0 : ℚ) ≤ (d : ℚ) / ((max l1 l2 : ℕ) : ℚ) := by positivity
    linarith

theorem similarity_nonneg {d l1 l2 : Nat} (h : d ≤ max l1 l2) :
    0 ≤ similarity d l1 l2 := by
  unfold similarity
  by_cases h0 : max l1 l2 = 0
  · simp [h0]
  · simp only [h0, if_false]
    have hm : (0 : ℚ) < ((max l1 l2 : ℕ) : ℚ) := by
      exact_mod_cast Nat.pos_of_ne_zero h0
    have hd : (d : ℚ) / ((max l1 l2 : ℕ) : ℚ) ≤ 1 := by
      rw [div_le_one hm]
      exact_mod_cast h
    linarith

theorem similarity_eq_one_iff {d l1 l2 : Nat} (h : d ≤ max l1 l2) :
    similarity d l1 l2 = 1 ↔ d = 0 := by
  unfold similarity
  by_cases h0 : max l1 l2 = 0
  · simp only [h0, if_true, true_iff, eq_self_iff_true]
    omega
  · simp only [h0, if_false]
    have hm : ((max l1 l2 : ℕ) : ℚ) ≠ 0 := by
      exact_mod_cast h0
    constructor
    · intro he
      have h1 : (d : ℚ) / ((max l1 l2 : ℕ) : ℚ) = 0 := by linarith
      have h2 : (d : ℚ) = 0 := by
        rcases div_eq_zero_iff.mp h1 with h2 | h2
        · exact h2
        · exact absurd h2 hm
      exact_mod_cast h2
    · rintro rfl
      simp

theorem similarity_self_zero {n : Nat} (hn : n ≠ 0) : similarity n n 0 = 0 := by
  unfold similarity
  rw [Nat.max_zero, if_neg hn]
  have hm : (n : ℚ) ≠ 0 := by exact_mod_cast hn
  field_simp

theorem scoreOf_nonneg {T : Type} (tl : List Char) (f : T → List Char) (c : T) :
    0 ≤ scoreOf tl f c :=
  similarity_nonneg (levenshteinDistance_le_max tl (toLowerCase (f c)))

theorem scoreOf_le_one {T : Type} (tl : List Char) (f : T → List Char) (c : T) :
    scoreOf tl f c ≤ 1 :=
  similarity_le_one _ _ _

theorem scoreOf_eq_one_iff {T : Type} (tl : List Char) (f : T → List Char) (c : T) :
    scoreOf tl f c = 1 ↔ toLowerCase (f c) = tl := by
  unfold scoreOf
  rw [similarity_eq_one_iff (levenshteinDistance_le_max tl (toLowerCase (f c)))]
  rw [levenshteinDistance_eq_zero_iff]
  exact eq_comm

theorem scoreOf_exact {T : Type} (tl : List Char) (f : T → List Char) (c : T)
    (h : toLowerCase (f c) = tl) : scoreOf tl f c = 1 :=
  (scoreOf_eq_one_iff tl f c).mpr h

/-! ### The selector loop picks the first candidate attaining the maximum -/

theorem fbmStep_eq {T : Type} (tl : List Char) (f : T → List Char)
    (b0 : Option T) (s0 : ℚ) (c : T) :
    fbmStep tl f (b0, s0) c =
      if s0 < scoreOf tl f c then (some c, scoreOf tl f c) else (b0, s0) := rfl

theorem foldl_fbm_spec {T : Type} (tl : List Char) (f : T → List Char) :
    ∀ (l : List T) (b0 : Option T) (s0 : ℚ),
      (l.foldl (fbmStep tl f) (b0, s0) = (b0, s0) ∧ ∀ c ∈ l, scoreOf tl f c ≤ s0) ∨
      (∃ pre c post, l = pre ++ c :: post ∧
        l.foldl (fbmStep tl f) (b0, s0) = (some c, scoreOf tl f c) ∧
        s0 < scoreOf tl f c ∧
        (∀ x ∈ pre, scoreOf tl f x < scoreOf tl f c) ∧
        (∀ x ∈ l, scoreOf tl f x ≤ scoreOf tl f c)) := by
  intro l
  induction l with
  | nil =>
    intro b0 s0
    left
    exact ⟨rfl, by simp⟩
  | cons c0 t ih =>
    intro b0 s0
    by_cases h0 : s0 < scoreOf tl f c0
    · have hfold : (c0 :: t).foldl (fbmStep tl f) (b0, s0) =
          t.foldl (fbmStep tl f) (some c0, scoreOf tl f c0) := by
        rw [List.foldl_cons, fbmStep_eq, if_pos h0]
      rcases ih (some c0) (scoreOf tl f c0) with ⟨heq, hall⟩ |
        ⟨pre, c, post, hsplit, heq, hgt, hpre, hall⟩
      · right
        refine ⟨[], c0, t, rfl, by rw [hfold, heq], h0, by simp, ?_⟩
        intro x hx
        rcases List.mem_cons.mp hx with hx | hx
        · subst hx; exact le_refl _
        · exact hall x hx
      · right
        refine ⟨c0 :: pre, c, post, by rw [hsplit]; rfl, by rw [hfold, heq],
          lt_trans h0 hgt, ?_, ?_⟩
        · intro x hx
          rcases List.mem_cons.mp hx with hx | hx
          · subst hx; exact hgt
          · exact hpre x hx
        · intro x hx
          rcases List.mem_cons.mp hx with hx | hx
          · subst hx; exact le_of_lt hgt
          · exact hall x hx
    · have hfold : (c0 :: t).foldl (fbmStep tl f) (b0, s0) =
          t.foldl (fbmStep tl f) (b0, s0) := by
        rw [List.foldl_cons, fbmStep_eq, if_neg h0]
      rcases ih b0 s0 with ⟨heq, hall⟩ | ⟨pre, c, post, hsplit, heq, hgt, hpre, hall⟩
      · left
        refine ⟨by rw [hfold, heq], ?_⟩
        intro x hx
        rcases List.mem_cons.mp hx with hx | hx
        · subst hx; exact le_of_not_lt h0
        · exact hall x hx
      · right
        refine ⟨c0 :: pre, c, post, by rw [hsplit]; rfl, by rw [hfold, heq], hgt, ?_, ?_⟩
        · intro x hx
          rcases List.mem_cons.mp hx with hx | hx
          · subst hx; exact lt_of_le_of_lt (le_of_not_lt h0) hgt
          · exact hpre x hx
        · intro x hx
          rcases List.mem_cons.mp hx with hx | hx
          · subst hx; exact le_trans (le_of_not_lt h0) (le_of_lt hgt)
          · exact hall x hx

theorem fbm_main {T : Type} (q : List Char) (cs : List T) (f : T → List Char)
    (hq : q ≠ []) (hcs : cs ≠ []) :
    ∃ pre c post, cs = pre ++ c :: post ∧
      (∀ x ∈ pre, scoreOf (toLowerCase q) f x < scoreOf (toLowerCase q) f c) ∧
      (∀ x ∈ cs, scoreOf (toLowerCase q) f x ≤ scoreOf (toLowerCase q) f c) ∧
      findBestMatch q cs f =
        if 1 / 2 < scoreOf (toLowerCase q) f c
        then some (c, scoreOf (toLowerCase q) f c) else none := by
  have hguard : ¬(q = [] ∨ cs.length = 0) := by
    push_neg
    exact ⟨hq, fun h => hcs (List.length_eq_zero.mp h)⟩
  rcases foldl_fbm_spec (toLowerCase q) f cs none (-1) with ⟨heq, hall⟩ |
    ⟨pre, c, post, hsplit, heq, hgt, hpre, hall⟩
  · exfalso
    match cs, hcs with
    | c0 :: t, _ =>
      have h1 := hall c0 (List.mem_cons_self c0 t)
      have h2 := scoreOf_nonneg (toLowerCase q) f c0
      linarith
  · refine ⟨pre, c, post, hsplit, hpre, hall, ?_⟩
    unfold findBestMatch
    rw [if_neg hguard]
    simp only [heq]

/-! ### Case folding is idempotent -/

theorem toNat_ofNat_valid {n : Nat} (h : n.isValidChar) :
    (Char.ofNat n).toNat = n := by
  rw [Char.ofNat, dif_pos h]
  rfl

theorem char_toLower_idem (c : Char) : c.toLower.toLower = c.toLower := by
  simp only [Char.toLower]
  by_cases h : c.toNat ≥ 65 ∧ c.toNat ≤ 90
  · rw [if_pos h]
    have hv : Nat.isValidChar (c.toNat + 32) := Or.inl (by omega)
    have ht : (Char.ofNat (c.toNat + 32)).toNat = c.toNat + 32 := toNat_ofNat_valid hv
    rw [if_neg]
    rw [ht]
    omega
  · rw [if_neg h, if_neg h]

theorem toLowerCase_idem (s : List Char) : toLowerCase (toLowerCase s) = toLowerCase s := by
  induction s with
  | nil => rfl
  | cons c t ih =>
    simp only [toLowerCase, List.map_cons, List.map_map] at *
    simp [char_toLower_idem, ih]

theorem findBestMatch_none {T : Type} (q : List Char) (cs : List T) (f : T → List Char)
    (h : q = [] ∨ cs.length = 0) : findBestMatch q cs f = none := by
  unfold findBestMatch
  rw [if_pos h]

theorem levenshteinDistance_nil_right (a : List Char) :
    levenshteinDistance a [] = a.length := by
  unfold levenshteinDistance
  by_cases h : a.length = 0
  · simp [h]
  · simp [h]

/-! ## The claims -/

/-- C1: For all strings `a` and `b`, `levenshteinDistance a b` equals the
minimum number of single-character insertions, deletions, and substitutions
needed to transform `a` into `b`, each operation having unit cost and with no
transposition operation: it is the least element of the set of edit-script
lengths from `a` to `b`. -/
theorem levenshteinDistance_isLeast_editScript (a b : List Char) :
    IsLeast {n : Nat | Reaches n a b} (levenshteinDistance a b) := by
  constructor
  · show Reaches (levenshteinDistance a b) a b
    rw [levenshteinDistance_eq_lev]
    have h := reaches_reverse (lev_reaches a.reverse b.reverse)
    simpa using h
  · intro n hn
    rw [levenshteinDistance_eq_lev]
    exact reaches_lev_le (reaches_reverse hn)

/-- C6: For all strings `a` and `b`,
`levenshteinDistance a b = levenshteinDistance b a` (the edit distance is
symmetric in its two arguments). -/
theorem levenshteinDistance_symm (a b : List Char) :
    levenshteinDistance a b = levenshteinDistance b a := by
  rw [levenshteinDistance_eq_lev, levenshteinDistance_eq_lev, lev_symm]

/-- C7: For all strings `a` and `b`, `levenshteinDistance a b` is at most
`max (length a) (length b)` and at least the absolute difference
`abs (length a - length b)`. -/
theorem levenshteinDistance_bounds (a b : List Char) :
    |(a.length : ℤ) - (b.length : ℤ)| ≤ (levenshteinDistance a b : ℤ) ∧
    levenshteinDistance a b ≤ max a.length b.length := by
  have h1 : a.length ≤ levenshteinDistance a b + b.length := by
    rw [levenshteinDistance_eq_lev]
    have h := length_le_lev_add a.reverse b.reverse
    simpa using h
  have h2 : b.length ≤ levenshteinDistance a b + a.length := by
    rw [levenshteinDistance_eq_lev, lev_symm]
    have h := length_le_lev_add b.reverse a.reverse
    simpa using h
  refine ⟨abs_le.mpr ⟨?_, ?_⟩, levenshteinDistance_le_max a b⟩
  · omega
  · omega

/-- C3: For every query, candidate list, and key extractor, `findBestMatch`
returns `none` whenever the query is the empty string or the candidate list
has zero elements. -/
theorem findBestMatch_empty_none {T : Type} (q : List Char) (cs : List T)
    (f : T → List Char) (h : q = [] ∨ cs = []) : findBestMatch q cs f = none := by
  apply findBestMatch_none
  rcases h with h | h
  · exact Or.inl h
  · exact Or.inr (by rw [h]; rfl)

/-- Witness for C3 at the concrete input `q = ""`, one candidate `"ab"`. -/
theorem findBestMatch_empty_none_witness :
    findBestMatch ([] : List Char) [[('a' : Char), 'b']] id = none :=
  findBestMatch_empty_none [] [['a', 'b']] id (Or.inl rfl)

/-- C2: For every non-empty query and non-empty candidate list,
`findBestMatch` returns a result exactly when the maximum similarity score
over all candidates (on the case-folded query and labels) is strictly greater
than `0.5`, and the score it returns is that maximum, which lies in
`(0.5, 1]`. -/
theorem findBestMatch_some_iff_max_gt_half {T : Type} (q : List Char) (cs : List T)
    (f : T → List Char) (hq : q ≠ []) (hcs : cs ≠ []) :
    ((∃ r, findBestMatch q cs f = some r) ↔
      ∃ c ∈ cs, 1 / 2 < scoreOf (toLowerCase q) f c) ∧
    (∀ c s, findBestMatch q cs f = some (c, s) →
      (∃ c' ∈ cs, scoreOf (toLowerCase q) f c' = s) ∧
      (∀ c' ∈ cs, scoreOf (toLowerCase q) f c' ≤ s) ∧
      1 / 2 < s ∧ s ≤ 1) := by
  obtain ⟨pre, c, post, hsplit, hpre, hall, hfbm⟩ := fbm_main q cs f hq hcs
  have hcmem : c ∈ cs := by
    rw [hsplit]
    exact List.mem_append.mpr (Or.inr (List.mem_cons_self c post))
  constructor
  · constructor
    · rintro ⟨r, hr⟩
      rw [hfbm] at hr
      by_cases hth : 1 / 2 < scoreOf (toLowerCase q) f c
      · exact ⟨c, hcmem, hth⟩
      · rw [if_neg hth] at hr
        cases hr
    · rintro ⟨c', hc', hgt⟩
      have hth : 1 / 2 < scoreOf (toLowerCase q) f c := lt_of_lt_of_le hgt (hall c' hc')
      rw [hfbm, if_pos hth]
      exact ⟨_, rfl⟩
  · intro c0 s0 h0
    rw [hfbm] at h0
    by_cases hth : 1 / 2 < scoreOf (toLowerCase q) f c
    · rw [if_pos hth] at h0
      have hc0 : c = c0 ∧ scoreOf (toLowerCase q) f c = s0 := by
        have := Option.some_inj.mp h0
        exact ⟨congrArg Prod.fst this, congrArg Prod.snd this⟩
      obtain ⟨hc0, hs0⟩ := hc0
      subst hc0
      refine ⟨⟨c, hcmem, hs0⟩, ?_, hs0 ▸ hth, hs0 ▸ scoreOf_le_one _ _ _⟩
      intro c' hc'
      exact hs0 ▸ hall c' hc'
    · rw [if_neg hth] at h0
      cases h0

/-- Witness for C2 at the concrete input `q = "ab"`, candidates `["ab"]`. -/
theorem findBestMatch_some_iff_max_gt_half_witness :
    ([('a' : Char), 'b'] : List Char) ≠ [] ∧
    ([[('a' : Char), 'b']] : List (List Char)) ≠ [] ∧
    (((∃ r, findBestMatch ['a', 'b'] [['a', 'b']] id = some r) ↔
      ∃ c ∈ [[('a' : Char), 'b']], 1 / 2 < scoreOf (toLowerCase ['a', 'b']) id c) ∧
    (∀ c s, findBestMatch ['a', 'b'] [['a', 'b']] id = some (c, s) →
      (∃ c' ∈ [[('a' : Char), 'b']], scoreOf (toLowerCase ['a', 'b']) id c' = s) ∧
      (∀ c' ∈ [[('a' : Char), 'b']], scoreOf (toLowerCase ['a', 'b']) id c' ≤ s) ∧
      1 / 2 < s ∧ s ≤ 1)) :=
  ⟨by simp, by simp,
    findBestMatch_some_iff_max_gt_half ['a', 'b'] [['a', 'b']] id (by simp) (by simp)⟩

/-- C4: whenever `findBestMatch` returns a candidate with score `s`, that
candidate is the first in input order attaining the maximum: every earlier
candidate scores strictly less than `s`, and every candidate scores at most
`s` (so on an exact tie the first-seen candidate is kept). -/
theorem findBestMatch_first_max {T : Type} (q : List Char) (cs : List T)
    (f : T → List Char) (c : T) (s : ℚ)
    (h : findBestMatch q cs f = some (c, s)) :
    ∃ pre post, cs = pre ++ c :: post ∧
      (∀ x ∈ pre, scoreOf (toLowerCase q) f x < s) ∧
      (∀ x ∈ cs, scoreOf (toLowerCase q) f x ≤ s) := by
  have hq : q ≠ [] := by
    rintro rfl
    rw [findBestMatch_none [] cs f (Or.inl rfl)] at h
    cases h
  have hcs : cs ≠ [] := by
    rintro rfl
    rw [findBestMatch_none q [] f (Or.inr rfl)] at h
    cases h
  obtain ⟨pre, c', post, hsplit, hpre, hall, hfbm⟩ := fbm_main q cs f hq hcs
  rw [hfbm] at h
  by_cases hth : 1 / 2 < scoreOf (toLowerCase q) f c'
  · rw [if_pos hth] at h
    have he := Option.some_inj.mp h
    have hc0 : c' = c := congrArg Prod.fst he
    have hs0 : scoreOf (toLowerCase q) f c' = s := congrArg Prod.snd he
    subst hc0
    exact ⟨pre, post, hsplit, fun x hx => hs0 ▸ hpre x hx, fun x hx => hs0 ▸ hall x hx⟩
  · rw [if_neg hth] at h
    cases h

/-- C10: whenever `findBestMatch` returns a result, the returned candidate is
an element of the candidate list and the returned score is the similarity
between the case-folded query and that candidate's case-folded label. -/
theorem findBestMatch_mem_and_score {T : Type} (q : List Char) (cs : List T)
    (f : T → List Char) (c : T) (s : ℚ)
    (h : findBestMatch q cs f = some (c, s)) :
    c ∈ cs ∧
    s = similarity (levenshteinDistance (toLowerCase q) (toLowerCase (f c)))
      (toLowerCase q).length (toLowerCase (f c)).length := by
  have hq : q ≠ [] := by
    rintro rfl
    rw [findBestMatch_none [] cs f (Or.inl rfl)] at h
    cases h
  have hcs : cs ≠ [] := by
    rintro rfl
    rw [findBestMatch_none q [] f (Or.inr rfl)] at h
    cases h
  obtain ⟨pre, c', post, hsplit, hpre, hall, hfbm⟩ := fbm_main q cs f hq hcs
  rw [hfbm] at h
  by_cases hth : 1 / 2 < scoreOf (toLowerCase q) f c'
  · rw [if_pos hth] at h
    have he := Option.some_inj.mp h
    have hc0 : c' = c := congrArg Prod.fst he
    have hs0 : scoreOf (toLowerCase q) f c' = s := congrArg Prod.snd he
    subst hc0
    constructor
    · rw [hsplit]
      exact List.mem_append.mpr (Or.inr (List.mem_cons_self c' post))
    · exact hs0.symm
  · rw [if_neg hth] at h
    cases h

/-- Witness for C4 at the concrete input `q = "ab"`, two tied candidates
`"ab"` and `"ab"`: the first one is returned. -/
theorem findBestMatch_first_max_witness :
    ∃ pre post, ([[('a' : Char), 'b'], ['a', 'b']] : List (List Char)) =
        pre ++ ['a', 'b'] :: post ∧
      (∀ x ∈ pre, scoreOf (toLowerCase ['a', 'b']) id x < 1) ∧
      (∀ x ∈ [[('a' : Char), 'b'], ['a', 'b']],
        scoreOf (toLowerCase ['a', 'b']) id x ≤ 1) :=
  findBestMatch_first_max ['a', 'b'] [['a', 'b'], ['a', 'b']] id ['a', 'b'] 1
    (by simp [findBestMatch, fbmStep, scoreOf, toLowerCase, levenshteinDistance, cell,
      similarity] ; norm_num)

/-- Witness for C10 at the concrete input `q = "ab"`, candidates `["ab"]`. -/
theorem findBestMatch_mem_and_score_witness :
    ([('a' : Char), 'b'] : List Char) ∈ [[('a' : Char), 'b']] ∧
    (1 : ℚ) = similarity
      (levenshteinDistance (toLowerCase ['a', 'b']) (toLowerCase ['a', 'b']))
      (toLowerCase ['a', 'b']).length (toLowerCase ['a', 'b']).length :=
  findBestMatch_mem_and_score ['a', 'b'] [['a', 'b']] id ['a', 'b'] 1
    (by simp [findBestMatch, fbmStep, scoreOf, toLowerCase, levenshteinDistance, cell,
      similarity] ; norm_num)

/-- C5: if the query is non-empty and some candidate's case-folded label is
exactly the case-folded query, `findBestMatch` returns the first such
candidate with score exactly `1`. -/
theorem findBestMatch_exact_match {T : Type} (q : List Char) (cs : List T)
    (f : T → List Char) (hq : q ≠ [])
    (hex : ∃ c ∈ cs, toLowerCase (f c) = toLowerCase q) :
    ∃ pre c post, cs = pre ++ c :: post ∧
      toLowerCase (f c) = toLowerCase q ∧
      (∀ x ∈ pre, toLowerCase (f x) ≠ toLowerCase q) ∧
      findBestMatch q cs f = some (c, 1) := by
  obtain ⟨e, hemem, heeq⟩ := hex
  have hcs : cs ≠ [] := by rintro rfl; cases hemem
  obtain ⟨pre, w, post, hsplit, hpre, hall, hfbm⟩ := fbm_main q cs f hq hcs
  have hse : scoreOf (toLowerCase q) f e = 1 := scoreOf_exact _ _ _ heeq
  have hw1 : scoreOf (toLowerCase q) f w = 1 :=
    le_antisymm (scoreOf_le_one _ _ _) (hse ▸ hall e hemem)
  have hweq : toLowerCase (f w) = toLowerCase q := (scoreOf_eq_one_iff _ _ _).mp hw1
  refine ⟨pre, w, post, hsplit, hweq, ?_, ?_⟩
  · intro x hx hxeq
    have h1 := hpre x hx
    rw [scoreOf_exact _ _ _ hxeq, hw1] at h1
    exact lt_irrefl _ h1
  · rw [hfbm, hw1]
    norm_num

/-- Witness for C5 at the concrete input `q = "Ab"`, candidates
`["cb", "ab"]`: the exact (case-folded) match `"ab"` wins with score `1`. -/
theorem findBestMatch_exact_match_witness :
    ∃ pre c post, ([[('c' : Char), 'b'], ['a', 'b']] : List (List Char)) =
        pre ++ c :: post ∧
      toLowerCase (id c) = toLowerCase ['A', 'b'] ∧
      (∀ x ∈ pre, toLowerCase (id x) ≠ toLowerCase ['A', 'b']) ∧
      findBestMatch ['A', 'b'] [['c', 'b'], ['a', 'b']] id = some (c, 1) :=
  findBestMatch_exact_match ['A', 'b'] [['c', 'b'], ['a', 'b']] id (by simp)
    ⟨['a', 'b'], by simp, by decide⟩

/-- C8: the selector's outcome is invariant under lower-casing the query,
because both the query and the labels are lower-cased before comparison. -/
theorem findBestMatch_lower_query {T : Type} (q : List Char) (cs : List T)
    (f : T → List Char) :
    findBestMatch q cs f = findBestMatch (toLowerCase q) cs f := by
  have hid : toLowerCase (toLowerCase q) = toLowerCase q := toLowerCase_idem q
  have hnil : (toLowerCase q = []) ↔ (q = []) := by simp [toLowerCase]
  simp only [findBestMatch, hid, hnil]

/-- C9: the similarity normalization never divides by zero: with two empty
strings it is defined to be `1`, and for a non-empty query a candidate whose
label is empty receives similarity exactly `0`, which does not clear the
acceptance threshold `0.5`. -/
theorem similarity_safe {T : Type} (f : T → List Char) :
    (∀ d : Nat, similarity d 0 0 = 1) ∧
    (∀ (q : List Char) (c : T), q ≠ [] → f c = [] →
      scoreOf (toLowerCase q) f c = 0 ∧ ¬(1 / 2 < scoreOf (toLowerCase q) f c)) := by
  constructor
  · intro d
    simp [similarity]
  · intro q c hq hfc
    have hne : (toLowerCase q).length ≠ 0 := by
      simp [toLowerCase, List.length_eq_zero]
      exact hq
    have hl : toLowerCase (f c) = [] := by rw [hfc]; rfl
    have hsc : scoreOf (toLowerCase q) f c = 0 := by
      unfold scoreOf
      rw [hl, levenshteinDistance_nil_right]
      simpa using similarity_self_zero hne
    exact ⟨hsc, by rw [hsc]; norm_num⟩

/-- Witness for C9: `similarity 5 0 0 = 1`, and an empty-label candidate
scores `0` against the non-empty query `"a"`. -/
theorem similarity_safe_witness :
    similarity 5 0 0 = 1 ∧
    scoreOf (toLowerCase [('a' : Char)]) (fun _ : Unit => []) () = 0 :=
  ⟨(similarity_safe (fun _ : Unit => ([] : List Char))).1 5,
   ((similarity_safe (fun _ : Unit => ([] : List Char))).2 ['a'] () (by simp) rfl).1⟩

end FuzzyCore
